import Mathlib

/-!
Verification of the cache-sim core: a shallow embedding of the cache
simulation engine (`src/cache.rs`), the replacement policies
(`src/replacement_policy.rs`) and the trace analytics (`src/trace.rs`).

Modelling conventions:
* Items are represented by their ids (`ℕ`, for the Rust `u64`/`u32` ids);
  equality and hashing in the source delegate to the id, so sets of items
  are sets of ids. Sizes and costs are ambient functions `sz : ℕ → ℕ`
  (Rust `u32`) and `cost : ℕ → ℚ` (Rust `f64`, modelled exactly by `ℚ`).
* `HashSet` is modelled as an insertion-ordered duplicate-free list;
  `HashMap` as an insertion-ordered association list.
* Rust panics (failed asserts, out-of-range `remove`, `expect`) and
  divergence are modelled by `Option`: `none` is a fast failure.
* Capacities and sizes are `u32` in the policy trait: capacities are
  modelled by `ℕ`. Real-valued entropy is modelled over `ℝ`.
-/

namespace CacheSim

/-- Sum of the sizes of the members of a set of ids
(`Cache::used_capacity`). Sizes are `u32` and the policy trait takes a
`u32` capacity, so capacities are modelled in `ℕ`. -/
def usedCapacity (sz : ℕ → ℕ) (set : List ℕ) : ℕ :=
  (set.map sz).sum

/-- A replacement policy: `update_state` advances bookkeeping, `replace`
returns the updated state and the ids to evict (`none` models a panic
or divergence inside the policy). Mirrors trait `ReplacementPolicy`. -/
structure Policy (σ : Type) where
  update_state : σ → List ℕ → ℕ → ℕ → σ
  replace : σ → List ℕ → ℕ → ℕ → Option (σ × List ℕ)

/-- A statistic: `update` observes (pre-access set, accessed item, evicted set).
Mirrors trait `Stat`. -/
structure StatImpl (τ : Type) where
  update : τ → List ℕ → ℕ → List ℕ → τ

/-- The cache state: resident set, policy state, capacity, statistic.
Mirrors struct `Cache`. -/
structure Cache (σ τ : Type) where
  set : List ℕ
  policy : σ
  capacity : ℕ
  stat : τ
deriving DecidableEq

/-- Check whether the cache has space for an item (`Cache::has_capacity_for`). -/
def hasCapacityFor (sz : ℕ → ℕ) (c : Cache σ τ) (item : ℕ) : Prop :=
  usedCapacity sz c.set + sz item ≤ c.capacity

instance (sz : ℕ → ℕ) (c : Cache σ τ) (item : ℕ) :
    Decidable (hasCapacityFor sz c item) := by
  unfold hasCapacityFor; infer_instance

/-- Insertion into the resident set (`HashSet::insert`): no change when the
id is already present. -/
def insertSet (set : List ℕ) (i : ℕ) : List ℕ :=
  if i ∈ set then set else set ++ [i]

/-- One access (`Cache::access`). On a hit or when there is room, only the
policy state and the statistic are updated; otherwise the policy chooses a
set to evict, the statistic observes the access, and the evicted ids are
removed. The accessed item is then inserted, and the final capacity check
models the closing `assert!` — `none` is the fail-fast panic. -/
def access (P : Policy σ) (S : StatImpl τ) (sz : ℕ → ℕ)
    (c : Cache σ τ) (item : ℕ) : Option (Cache σ τ) :=
  let step1 : Option (Cache σ τ) :=
    if item ∈ c.set ∨ hasCapacityFor sz c item then
      some { c with policy := P.update_state c.policy c.set c.capacity item,
                    stat := S.update c.stat c.set item [] }
    else
      match P.replace c.policy c.set c.capacity item with
      | none => none
      | some (p', ev) =>
        some { c with set := c.set.filter (fun x => ¬ x ∈ ev),
                      policy := p',
                      stat := S.update c.stat c.set item ev }
  match step1 with
  | none => none
  | some c1 =>
    let c2 : Cache σ τ := { c1 with set := insertSet c1.set item }
    if usedCapacity sz c2.set ≤ c2.capacity then some c2 else none

/-- Replay a whole trace through the cache (`Cache::run_trace`). -/
def runTrace (P : Policy σ) (S : StatImpl τ) (sz : ℕ → ℕ)
    (c : Cache σ τ) : List ℕ → Option (Cache σ τ)
  | [] => some c
  | i :: rest => (access P S sz c i).bind (fun c' => runTrace P S sz c' rest)

/-- A freshly constructed, empty cache (`Cache::new` /
`Cache::with_replacement_policy`). -/
def mkCache (p0 : σ) (s0 : τ) (cap : ℕ) : Cache σ τ :=
  { set := [], policy := p0, capacity := cap, stat := s0 }

/-- The trivial statistic (`()` as a `Stat`). -/
def unitStat : StatImpl Unit := ⟨fun _ _ _ _ => ()⟩

/-- Hit counter (`stats::HitCount`): increments iff the accessed item was
in the pre-access set. -/
def hitCount : StatImpl ℕ := ⟨fun n set next _ => if next ∈ set then n + 1 else n⟩

/-- Sum of the sizes of a list of ids, as a natural (policy-side size sums,
which the source computes in `u32`). -/
def sumSz (sz : ℕ → ℕ) (l : List ℕ) : ℕ := (l.map sz).sum

namespace Lru

/-- State of the LRU policy: a recency stack, oldest first (`Lru::stack`). -/
structure State where
  stack : List ℕ
deriving DecidableEq

/-- The recency-stack update shared by `Lru::update_state` and
`Mru::update_state`: remove the item's existing position, if present,
and push it to the newest end. -/
def updateStack (stack : List ℕ) (next : ℕ) : List ℕ :=
  (stack.erase next) ++ [next]

/-- State update of LRU (`Lru::update_state`). -/
def update_state (s : State) (_set : List ℕ) (_cap : ℕ) (next : ℕ) : State :=
  ⟨updateStack s.stack next⟩

/-- Eviction for LRU (`Lru::replace`): update the stack, then evict the
oldest entry (`stack.remove(0)`; panic — `none` — on an empty stack). -/
def replace (s : State) (set : List ℕ) (cap : ℕ) (next : ℕ) :
    Option (State × List ℕ) :=
  match update_state s set cap next with
  | ⟨[]⟩ => none
  | ⟨h :: t⟩ => some (⟨t⟩, [h])

/-- LRU as a `Policy` record. -/
def policy : Policy State := ⟨update_state, replace⟩

/-- One iteration step of the `Lru::tiebreak` while loop, with explicit fuel.
Each productive iteration appends the oldest stack entry that is among the
candidates (`pool`) and not yet chosen. A failed `find` leaves `ret`
unchanged, which in the source loops forever: modelled as `none`. The
closing `assert!(!ret.is_empty())` is the final check. -/
def tiebreakGo (sz : ℕ → ℕ) (stack pool : List ℕ) (size_to_free : ℕ) :
    ℕ → List ℕ → Option (List ℕ)
  | 0, _ => none
  | fuel + 1, ret =>
    if size_to_free > sumSz sz ret ∧ ret.length < pool.length then
      match (stack.filter (fun i => ¬ i ∈ ret)).find? (fun i => i ∈ pool) with
      | some i => tiebreakGo sz stack pool size_to_free fuel (ret ++ [i])
      | none => none
    else
      if ret = [] then none else some ret

/-- The LRU tiebreaker (`Lru::tiebreak`): pick candidates in recency order
until enough size is freed. The fuel `pool.length + 1` is enough for every
terminating run of the source loop. -/
def tiebreak (sz : ℕ → ℕ) (s : State) (pool : List ℕ) (size_to_free : ℕ) :
    Option (List ℕ) :=
  tiebreakGo sz s.stack pool size_to_free (pool.length + 1) []

end Lru

namespace Mru

/-- State of the MRU policy: a recency stack, oldest first (`Mru::stack`). -/
structure State where
  stack : List ℕ
deriving DecidableEq

/-- State update of MRU (`Mru::update_state`, identical to LRU's). -/
def update_state (s : State) (_set : List ℕ) (_cap : ℕ) (next : ℕ) : State :=
  ⟨Lru.updateStack s.stack next⟩

/-- Eviction for MRU (`Mru::replace`): update the stack (pushing `next` on
top), then evict the second-to-top entry — `stack.remove(stack.len() - 2)`.
When the updated stack has fewer than two entries the source panics
(usize underflow / out-of-range remove): modelled as `none`. -/
def replace (s : State) (set : List ℕ) (cap : ℕ) (next : ℕ) :
    Option (State × List ℕ) :=
  let st := (update_state s set cap next).stack
  if 2 ≤ st.length then
    some (⟨st.eraseIdx (st.length - 2)⟩, [st.getD (st.length - 2) 0])
  else
    none

/-- MRU as a `Policy` record. -/
def policy : Policy State := ⟨update_state, replace⟩

end Mru

namespace Lfu

/-- State of the LFU policy: per-id access counts (`Lfu::counts`, a
`HashMap` modelled as an association list in insertion order) together
with the LRU tiebreaker's state. -/
structure State where
  counts : List (ℕ × ℕ)
  tiebreaker : Lru.State
deriving DecidableEq

/-- Increment the count of an id (`*self.counts.entry(next).or_insert(0) += 1`). -/
def bumpCount (counts : List (ℕ × ℕ)) (next : ℕ) : List (ℕ × ℕ) :=
  if counts.any (fun p => p.1 = next) then
    counts.map (fun p => if p.1 = next then (p.1, p.2 + 1) else p)
  else
    counts ++ [(next, 1)]

/-- State update of LFU (`Lfu::update_state`): bump the count and update
the tiebreaker. -/
def update_state (s : State) (set : List ℕ) (cap : ℕ) (next : ℕ) : State :=
  ⟨bumpCount s.counts next,
    Lru.update_state s.tiebreaker set cap next⟩

/-- Eviction for LFU (`Lfu::replace`): update state, compute the minimum
count among ids that are in the resident set, then tiebreak — note that the
candidate pool passed to the tiebreaker is every id whose count equals
that minimum, with no residency filter (exactly as in the source). -/
def replace (sz : ℕ → ℕ) (s : State) (set : List ℕ) (cap : ℕ) (next : ℕ) :
    Option (State × List ℕ) :=
  let s' := update_state s set cap next
  let residentCounts := (s'.counts.filter (fun p => p.1 ∈ set)).map (fun p => p.2)
  match residentCounts.min? with
  | none => none
  | some minCount =>
    let pool := (s'.counts.filter (fun p => p.2 = minCount)).map (fun p => p.1)
    match Lru.tiebreak sz s'.tiebreaker pool 1 with
    | none => none
    | some ev => some (s', ev)

/-- LFU (with the default LRU tiebreaker) as a `Policy` record. -/
def policy (sz : ℕ → ℕ) : Policy State := ⟨update_state, replace sz⟩

end Lfu

/-- Lookup in an association list, first match wins (`HashMap::get` on an
id-keyed map). -/
def lookupC : List (ℕ × ℚ) → ℕ → Option ℚ
  | [], _ => none
  | p :: rest, k => if p.1 = k then some p.2 else lookupC rest k

/-- Overwrite-or-append on an association list (`HashMap::insert`, and the
in-place `get_mut` writes). -/
def updCredit (credit : List (ℕ × ℚ)) (k : ℕ) (v : ℚ) : List (ℕ × ℚ) :=
  if credit.any (fun p => p.1 = k) then
    credit.map (fun p => if p.1 = k then (k, v) else p)
  else
    credit ++ [(k, v)]

namespace Landlord

/-- State of the Landlord policy: a credit per id, the credit-increase
fraction, and the tiebreaker's state (`Landlord::{credit, credit_increase,
tiebreaker}`). Credits are `f64` in the source, modelled exactly by `ℚ`. -/
structure State where
  credit : List (ℕ × ℚ)
  credit_increase : ℚ
  tiebreaker : Lru.State
deriving DecidableEq

/-- State update of Landlord (`Landlord::update_state`): a resident item
(a hit) has its credit moved toward its cost ceiling by the
`credit_increase` fraction of the gap; a non-resident item gets credit
equal to its cost. The `else` arm of the inner `if let` (resident item
with no credit entry, noted "should be impossible" in the source) also
inserts the cost. -/
def update_state (cost : ℕ → ℚ) (s : State) (set : List ℕ) (_cap : ℕ)
    (next : ℕ) : State :=
  let credit' :=
    if next ∈ set then
      match lookupC s.credit next with
      | some c => updCredit s.credit next (c + (cost next - c) * s.credit_increase)
      | none => updCredit s.credit next (cost next)
    else
      updCredit s.credit next (cost next)
  { s with credit := credit',
           tiebreaker := ⟨Lru.updateStack s.tiebreaker.stack next⟩ }

end Landlord

namespace Opt

/-- Modelled from the spec: the Optimal (Belady) policy is absent from
`src/` (only LRU, FIFO, MRU, LFU, Rand and Landlord exist there); per the
spec it is "constructed with a reference to the full future trace" and its
state is the remaining future trace, consumed as access progresses. -/
structure State where
  future : List ℕ
deriving DecidableEq

/-- Modelled from the spec: `update_state` "advances an internal cursor
(drops the current head)" of the remaining trace. -/
def update_state (s : State) (_set : List ℕ) (_cap : ℕ) (_next : ℕ) : State :=
  ⟨s.future.tail⟩

/-- Index of the first occurrence of an id in a list (`iter().position`). -/
def firstIdx (x : ℕ) : List ℕ → Option ℕ
  | [] => none
  | y :: ys => if y = x then some 0 else (firstIdx x ys).map (· + 1)

/-- Next-occurrence index with default 0, used only where every resident
is known to occur in the future. -/
def idxD (f : List ℕ) (x : ℕ) : ℕ := (firstIdx x f).getD 0

/-- Resident whose next occurrence is farthest in the future: a left fold
over the residents keeping the candidate with the larger next-occurrence
index (first one wins ties). -/
def farthest (f : List ℕ) (y : ℕ) (ys : List ℕ) : ℕ :=
  ys.foldl (fun best z => if idxD f best < idxD f z then z else best) y

/-- Modelled from the spec: `replace` first advances the cursor (the common
contract makes `replace` call `update_state` first), then prefers evicting
a resident item with no future occurrence in the remaining trace; otherwise
it evicts the resident whose next occurrence is farthest in the future.
An empty resident set is an invariant violation (`none`). -/
def replace (s : State) (set : List ℕ) (cap : ℕ) (next : ℕ) :
    Option (State × List ℕ) :=
  let s' := update_state s set cap next
  match set.find? (fun x => (firstIdx x s'.future).isNone) with
  | some x => some (s', [x])
  | none =>
    match set with
    | [] => none
    | y :: ys => some (s', [farthest s'.future y ys])

end Opt

/-- Strides of a list of ids (`trace_strides`): for each `i` in
`1..len`, push `id(trace[i]) - id(trace[i-1])` as a signed integer. -/
def trace_strides (trace : List ℕ) : List ℤ :=
  List.zipWith (fun (a b : ℕ) => (b : ℤ) - (a : ℤ)) trace trace.tail

/-- A trace: the ordered accesses plus the derived strides
(struct `Trace`). This models the `u32`-item instantiation, where the id
of an item is the item itself. -/
structure Trace where
  inner : List ℕ
  strides : List ℤ
deriving DecidableEq

/-- Construction of a trace from a vector (`impl From<Vec<I>> for Trace`,
and identically `FromIterator`): strides are derived from the items. -/
def traceFromVec (l : List ℕ) : Trace :=
  { inner := l, strides := trace_strides l }

/-- The `Stat` implementation for `Trace` (`impl Stat<I> for Trace`): the
update hook pushes the accessed item onto `inner` — and does not touch
`strides`. -/
def traceStatUpdate (t : Trace) (_set : List ℕ) (next : ℕ)
    (_evicted : List ℕ) : Trace :=
  { t with inner := t.inner ++ [next] }

/-- The capped size sum of `Trace::stack_distances`' non-paging branch:
`fold(0, |sum, val| if sum < 1000000000 { sum + val } else { sum })`. -/
def cappedSum (l : List ℕ) : ℕ :=
  l.foldl (fun sum val => if sum < 1000000000 then sum + val else sum) 0

/-- One step of the stack-distance scan: if the current id is on the stack
at position `p`, its distance is the count (paging model) or capped size
sum (general model) of the entries above it; the id is removed and
re-pushed on top. A first occurrence yields `none`. -/
def sdStep (sz : ℕ → ℕ) (paging : Bool) (stack : List ℕ) (curr : ℕ) :
    Option ℕ × List ℕ :=
  match Opt.firstIdx curr stack with
  | some p =>
    let above := stack.drop (p + 1)
    (some (if paging then above.length else cappedSum (above.map sz)),
     (stack.eraseIdx p) ++ [curr])
  | none => (none, stack ++ [curr])

/-- The stack-distance scan with an explicit recency stack accumulator. -/
def sdGo (sz : ℕ → ℕ) (paging : Bool) (stack : List ℕ) :
    List ℕ → List (Option ℕ)
  | [] => []
  | c :: rest =>
    let step := sdStep sz paging stack c
    step.1 :: sdGo sz paging step.2 rest

/-- Stack distances of a trace (`Trace::stack_distances`): a single
left-to-right scan over an initially empty recency stack. -/
def stack_distances (sz : ℕ → ℕ) (paging : Bool) (t : List ℕ) :
    List (Option ℕ) :=
  sdGo sz paging [] t

/-- Maximum of a list of naturals via a left fold (`Iterator::max` over
the finite distances; the empty case is handled at the call site). -/
def maxNat (l : List ℕ) : ℕ := l.foldl max 0

/-- The `freqs[i] += 1` step of the histogram. `List.set` is a no-op out
of range, where the source would panic; the conservation theorem shows the
index is always in range. -/
def bumpAt (l : List ℕ) (i : ℕ) : List ℕ := l.set i (l.getD i 0 + 1)

/-- One fold step of `StackDistance::histogram`: a finite distance bumps
its bucket, an infinite one bumps the infinity counter. -/
def histStep (acc : List ℕ × ℕ) (d : Option ℕ) : List ℕ × ℕ :=
  match d with
  | some i => (bumpAt acc.1 i, acc.2)
  | none => (acc.1, acc.2 + 1)

/-- The stack-distance histogram (`StackDistance::histogram`): a vector of
frequencies indexed by distance — sized `max + 1` by the maximal finite
distance, empty when every distance is infinite — plus the infinity count. -/
def histogram (ds : List (Option ℕ)) : List ℕ × ℕ :=
  let finite := ds.filterMap id
  let init : List ℕ := if finite.isEmpty then [] else List.replicate (maxNat finite + 1) 0
  ds.foldl histStep (init, 0)

/-- Shannon entropy, base 2, of a frequency histogram (`entropy`): the
histogram's values are its counts; `f64` arithmetic is modelled over `ℝ`. -/
noncomputable def entropy (h : List (ℕ × ℕ)) : ℝ :=
  - (h.map (fun p =>
      ((p.2 : ℝ) / (((h.map (fun q => q.2)).sum : ℕ) : ℝ)) *
        Real.logb 2 ((p.2 : ℝ) / (((h.map (fun q => q.2)).sum : ℕ) : ℝ)))).sum

/-- The size function of the built-in `u32` paging items: size ≡ 1. -/
def sz1 : ℕ → ℕ := fun _ => 1

theorem access_some_inv {σ τ : Type} (P : Policy σ) (S : StatImpl τ) (sz : ℕ → ℕ)
    {c c' : Cache σ τ} {item : ℕ} (h : access P S sz c item = some c') :
    c'.capacity = c.capacity ∧ usedCapacity sz c'.set ≤ c'.capacity := by
  simp only [access] at h
  split at h
  · exact absurd h (by simp)
  · rename_i c1 heq
    split at h
    · rename_i hle
      cases h
      constructor
      · split at heq
        · cases heq; rfl
        · split at heq
          · exact absurd heq (by simp)
          · cases heq; rfl
      · exact hle
    · exact absurd h (by simp)

theorem runTrace_some_inv {σ τ : Type} (P : Policy σ) (S : StatImpl τ) (sz : ℕ → ℕ) :
    ∀ (tr : List ℕ) (c c' : Cache σ τ), tr ≠ [] →
      runTrace P S sz c tr = some c' → usedCapacity sz c'.set ≤ c'.capacity := by
  intro tr
  induction tr with
  | nil => intro c c' hne _; exact absurd rfl hne
  | cons i rest ih =>
    intro c c' _ h
    simp only [runTrace] at h
    rw [Option.bind_eq_some] at h
    obtain ⟨c1, hacc, hrest⟩ := h
    cases rest with
    | nil =>
      simp only [runTrace, Option.some_inj] at hrest
      subst hrest
      exact (access_some_inv P S sz hacc).2
    | cons j rest' => exact ih c1 c' (by simp) hrest

/-- C1: for every replacement policy, capacity, and trace, after every
successful `Cache::access` (including every access performed inside
`Cache::run_trace`) the total size of the resident set is at most the
(unchanged) capacity; when a policy under-evicts, the final capacity
check (the source's `assert!`) makes the access fail fast (`none`) instead
of returning an over-capacity cache. -/
theorem cache_access_capacity_invariant {σ τ : Type} (P : Policy σ) (S : StatImpl τ)
    (sz : ℕ → ℕ) :
    (∀ (c c' : Cache σ τ) (item : ℕ), access P S sz c item = some c' →
        c'.capacity = c.capacity ∧ usedCapacity sz c'.set ≤ c'.capacity) ∧
    (∀ (tr : List ℕ) (c c' : Cache σ τ), tr ≠ [] →
        runTrace P S sz c tr = some c' → usedCapacity sz c'.set ≤ c'.capacity) :=
  ⟨fun _ _ _ h => access_some_inv P S sz h,
   fun tr c c' hne h => runTrace_some_inv P S sz tr c c' hne h⟩

/-- Witness for C1: a concrete access and a concrete five-access LRU replay,
each landing within capacity 3. -/
theorem cache_access_capacity_invariant_witness :
    usedCapacity sz1 ([0] : List ℕ) ≤ 3 ∧
      usedCapacity sz1 ([0, 2, 3] : List ℕ) ≤ 3 := by
  constructor
  · have h := (cache_access_capacity_invariant Lru.policy unitStat sz1).1
      (mkCache ⟨[]⟩ () 3) ⟨[0], ⟨[0]⟩, 3, ()⟩ 0 (by decide)
    exact h.2
  · have h := (cache_access_capacity_invariant Lru.policy unitStat sz1).2
      [0, 1, 2, 0, 3] (mkCache ⟨[]⟩ () 3) ⟨[0, 2, 3], ⟨[2, 0, 3]⟩, 3, ()⟩
      (by decide) (by decide)
    exact h

/-- C7: replaying a trace through two freshly constructed, identically
configured caches (same policy initial state, same statistic initial state,
same capacity) yields identical resident sets and identical statistic
outputs — the whole engine is a deterministic function of its
configuration. -/
theorem run_trace_deterministic {σ τ : Type} (P : Policy σ) (S : StatImpl τ)
    (sz : ℕ → ℕ) (p0 : σ) (s0 : τ) (cap : ℕ) (tr : List ℕ)
    (c1 c2 : Cache σ τ) (h1 : c1 = mkCache p0 s0 cap) (h2 : c2 = mkCache p0 s0 cap) :
    (runTrace P S sz c1 tr).map (fun c => c.set)
        = (runTrace P S sz c2 tr).map (fun c => c.set) ∧
      (runTrace P S sz c1 tr).map (fun c => c.stat)
        = (runTrace P S sz c2 tr).map (fun c => c.stat) := by
  subst h1; subst h2; exact ⟨rfl, rfl⟩

/-- Witness for C7: two identically configured LRU caches with a hit
counter replay the same five-access trace. -/
theorem run_trace_deterministic_witness :
    (runTrace Lru.policy hitCount sz1 (mkCache ⟨[]⟩ 0 3) [0, 1, 2, 0, 3]).map (fun c => c.set)
        = (runTrace Lru.policy hitCount sz1 (mkCache ⟨[]⟩ 0 3) [0, 1, 2, 0, 3]).map (fun c => c.set) ∧
      (runTrace Lru.policy hitCount sz1 (mkCache ⟨[]⟩ 0 3) [0, 1, 2, 0, 3]).map (fun c => c.stat)
        = (runTrace Lru.policy hitCount sz1 (mkCache ⟨[]⟩ 0 3) [0, 1, 2, 0, 3]).map (fun c => c.stat) :=
  run_trace_deterministic Lru.policy hitCount sz1 ⟨[]⟩ 0 3 [0, 1, 2, 0, 3] _ _ rfl rfl

/-- C3, failing input: with the default `Cache<Lfu>` (LRU tiebreaker) at
capacity 3, after the trace `[0,1,2,3]` the resident set is `{1,2,3}`
(item 0 was evicted at the access of 3), yet `Lfu::replace` for the next
access `4` returns `{0}` — a non-resident id. The candidate pool passed to
the tiebreaker is filtered only by `count == min`, not by residency, so
the long-evicted 0 (still oldest on the tiebreaker's recency stack, still
at the minimal count 1) is picked. The cache removes nothing, inserts 4,
and the capacity `assert!` fires: the five-access run fails. -/
theorem lfu_replace_returns_nonresident :
    (runTrace (Lfu.policy sz1) unitStat sz1 (mkCache ⟨[], ⟨[]⟩⟩ () 3)
        [0, 1, 2, 3]).map (fun c => c.set) = some [1, 2, 3] ∧
      (runTrace (Lfu.policy sz1) unitStat sz1 (mkCache ⟨[], ⟨[]⟩⟩ () 3)
          [0, 1, 2, 3]).bind
        (fun c => (Lfu.replace sz1 c.policy c.set c.capacity 4).map Prod.snd)
        = some [0] ∧
      ¬ (0 : ℕ) ∈ ([1, 2, 3] : List ℕ) ∧
      runTrace (Lfu.policy sz1) unitStat sz1 (mkCache ⟨[], ⟨[]⟩⟩ () 3)
        [0, 1, 2, 3, 4] = none := by
  refine ⟨by decide, by decide, by decide, by decide⟩

theorem getD_length_sub_one_getLastD : ∀ (l : List ℕ), l ≠ [] →
    l.getD (l.length - 1) 0 = l.getLastD 0 := by
  intro l
  induction l with
  | nil => intro h; exact absurd rfl h
  | cons a t ih =>
    intro _
    cases t with
    | nil => rfl
    | cons b t' =>
      have h2 : (b :: t') ≠ [] := by simp
      have : (a :: b :: t').length - 1 = (b :: t').length - 1 + 1 := by
        simp [List.length_cons]
      rw [this, List.getD_cons_succ, ih h2]
      simp [List.getLastD]

theorem getLastD_mem_of_ne_nil : ∀ (l : List ℕ), l ≠ [] → l.getLastD 0 ∈ l := by
  intro l
  induction l with
  | nil => intro h; exact absurd rfl h
  | cons a t ih =>
    intro _
    cases t with
    | nil => simp [List.getLastD]
    | cons b t' =>
      have h2 : (b :: t') ≠ [] := by simp
      have := ih h2
      simp only [List.getLastD] at *
      exact List.mem_cons_of_mem a this

/-- C9: with MRU at capacity 3 the trace `[0,1,2,3]` leaves the resident
set `{0,1,3}`; in general, on an eviction for a non-resident `next`
(recency stack = residents, in recency order), `Mru::replace` evicts the
newest entry of the recency stack other than the just-pushed `next` — that
is, the most recently used resident, which is resident and distinct from
`next`. -/
theorem mru_evicts_most_recent_other_than_inserted :
    ((runTrace Mru.policy unitStat sz1 (mkCache ⟨[]⟩ () 3) [0, 1, 2, 3]).map
        (fun c => c.set) = some [0, 1, 3]) ∧
    (∀ (s : Mru.State) (set : List ℕ) (cap : ℕ) (next : ℕ),
        s.stack ≠ [] → ¬ next ∈ s.stack → (∀ x ∈ s.stack, x ∈ set) →
        (Mru.replace s set cap next).map Prod.snd = some [s.stack.getLastD 0] ∧
          s.stack.getLastD 0 ∈ set ∧ s.stack.getLastD 0 ≠ next) := by
  constructor
  · decide
  · intro s set cap next hne hnotmem hsub
    have hupd : (Mru.update_state s set cap next).stack = s.stack ++ [next] := by
      simp [Mru.update_state, Lru.updateStack, List.erase_of_not_mem hnotmem]
    have hlen : (s.stack ++ [next]).length = s.stack.length + 1 := by simp
    have hpos : 1 ≤ s.stack.length := List.length_pos.mpr hne
    have hget : (s.stack ++ [next]).getD ((s.stack ++ [next]).length - 2) 0
        = s.stack.getLastD 0 := by
      rw [hlen]
      have h2 : s.stack.length + 1 - 2 = s.stack.length - 1 := by omega
      rw [h2, List.getD_append _ _ _ _ (by omega), getD_length_sub_one_getLastD s.stack hne]
    have hmem : s.stack.getLastD 0 ∈ s.stack := getLastD_mem_of_ne_nil s.stack hne
    refine ⟨?_, hsub _ hmem, fun h => hnotmem (h ▸ hmem)⟩
    simp only [Mru.replace, hupd]
    rw [if_pos (by rw [hlen]; omega)]
    simp only [Option.map_some']
    rw [hget]

/-- Witness for C9's general part: recency stack `[0,1]`, resident set
`{0,1}`, inserting `2` evicts `1` — the most recent resident. -/
theorem mru_evicts_most_recent_other_than_inserted_witness :
    (Mru.replace ⟨[0, 1]⟩ [0, 1] 2 2).map Prod.snd
        = some [([0, 1] : List ℕ).getLastD 0] ∧
      ([0, 1] : List ℕ).getLastD 0 ∈ ([0, 1] : List ℕ) ∧
      ([0, 1] : List ℕ).getLastD 0 ≠ 2 :=
  mru_evicts_most_recent_other_than_inserted.2 ⟨[0, 1]⟩ [0, 1] 2 2
    (by decide) (by decide) (by decide)

theorem lookupC_map_upd (credit : List (ℕ × ℚ)) (k : ℕ) (v : ℚ)
    (h : credit.any (fun p => p.1 = k) = true) :
    lookupC (credit.map (fun p => if p.1 = k then (k, v) else p)) k = some v := by
  induction credit with
  | nil => simp at h
  | cons p rest ih =>
    by_cases hp : p.1 = k
    · simp [lookupC, hp]
    · simp only [List.any_cons, Bool.or_eq_true, decide_eq_true_eq] at h
      have h' : rest.any (fun p => p.1 = k) = true := by
        rcases h with h | h
        · exact absurd h hp
        · exact h
      simpa [lookupC, hp] using ih h'

theorem lookupC_append_new (credit : List (ℕ × ℚ)) (k : ℕ) (v : ℚ)
    (h : credit.any (fun p => p.1 = k) = false) :
    lookupC (credit ++ [(k, v)]) k = some v := by
  induction credit with
  | nil => simp [lookupC]
  | cons p rest ih =>
    simp only [List.any_cons, Bool.or_eq_false_iff, decide_eq_false_iff_not] at h
    simpa [lookupC, h.1] using ih (by simp [h.2])

theorem lookupC_updCredit (credit : List (ℕ × ℚ)) (k : ℕ) (v : ℚ) :
    lookupC (updCredit credit k v) k = some v := by
  unfold updCredit
  split
  · rename_i h
    exact lookupC_map_upd credit k v h
  · rename_i h
    exact lookupC_append_new credit k v (Bool.eq_false_iff.mpr h)

/-- C4: `Landlord::update_state` gives a newly admitted (non-resident)
item a credit equal to its cost, and moves a resident item's (hit) credit
toward its cost ceiling by `credit_increase` times the gap
`cost - credit`. -/
theorem landlord_update_state_credit (cost : ℕ → ℚ) (s : Landlord.State)
    (set : List ℕ) (cap : ℕ) (next : ℕ) :
    (¬ next ∈ set →
        lookupC (Landlord.update_state cost s set cap next).credit next
          = some (cost next)) ∧
      (∀ cr : ℚ, next ∈ set → lookupC s.credit next = some cr →
        lookupC (Landlord.update_state cost s set cap next).credit next
          = some (cr + (cost next - cr) * s.credit_increase)) := by
  constructor
  · intro hmiss
    simp only [Landlord.update_state, if_neg hmiss]
    exact lookupC_updCredit s.credit next (cost next)
  · intro cr hhit hcr
    simp only [Landlord.update_state, if_pos hhit, hcr]
    exact lookupC_updCredit s.credit next _

/-- Witness for C4: credit table `{5 ↦ 1/2}`, `credit_increase = 1/3`,
cost ≡ id+1. A miss on 7 installs credit `8`; a hit on 5 moves the credit
from `1/2` toward its cost `6` by a third of the gap. -/
theorem landlord_update_state_credit_witness :
    lookupC (Landlord.update_state (fun n => (n : ℚ) + 1)
        ⟨[(5, 1/2)], 1/3, ⟨[]⟩⟩ [5] 3 7).credit 7 = some ((7 : ℚ) + 1) ∧
      lookupC (Landlord.update_state (fun n => (n : ℚ) + 1)
        ⟨[(5, 1/2)], 1/3, ⟨[]⟩⟩ [5] 3 5).credit 5
        = some ((1/2 : ℚ) + (((5 : ℚ) + 1) - 1/2) * (1/3)) :=
  ⟨(landlord_update_state_credit (fun n => (n : ℚ) + 1)
      ⟨[(5, 1/2)], 1/3, ⟨[]⟩⟩ [5] 3 7).1 (by decide),
   (landlord_update_state_credit (fun n => (n : ℚ) + 1)
      ⟨[(5, 1/2)], 1/3, ⟨[]⟩⟩ [5] 3 5).2 (1/2) (by decide) (by norm_num [lookupC])⟩

theorem farthest_spec (f : List ℕ) : ∀ (ys : List ℕ) (y : ℕ),
    Opt.farthest f y ys ∈ y :: ys ∧
      ∀ z ∈ y :: ys, Opt.idxD f z ≤ Opt.idxD f (Opt.farthest f y ys) := by
  intro ys
  induction ys with
  | nil =>
    intro y
    refine ⟨List.mem_singleton.mpr rfl, ?_⟩
    intro z hz
    rw [List.mem_singleton.mp hz]
    simp [Opt.farthest]
  | cons z zs ih =>
    intro y
    by_cases hc : Opt.idxD f y < Opt.idxD f z
    · have hstep : Opt.farthest f y (z :: zs) = Opt.farthest f z zs := by
        simp [Opt.farthest, hc]
      obtain ⟨ihmem, ihbound⟩ := ih z
      rw [hstep]
      constructor
      · rcases List.mem_cons.mp ihmem with h | h
        · rw [h]
          exact List.mem_cons_of_mem _ (List.mem_cons_self _ _)
        · exact List.mem_cons_of_mem _ (List.mem_cons_of_mem _ h)
      · intro w hw
        rcases List.mem_cons.mp hw with rfl | hw'
        · exact le_trans (le_of_lt hc) (ihbound z (List.mem_cons_self _ _))
        · exact ihbound w hw'
    · have hstep : Opt.farthest f y (z :: zs) = Opt.farthest f y zs := by
        simp [Opt.farthest, hc]
      obtain ⟨ihmem, ihbound⟩ := ih y
      rw [hstep]
      constructor
      · rcases List.mem_cons.mp ihmem with h | h
        · rw [h]
          exact List.mem_cons_self _ _
        · exact List.mem_cons_of_mem _ (List.mem_cons_of_mem _ h)
      · intro w hw
        rcases List.mem_cons.mp hw with rfl | hw'
        · exact ihbound w (List.mem_cons_self _ _)
        · rcases List.mem_cons.mp hw' with rfl | hw''
          · exact le_trans (le_of_not_lt hc) (ihbound y (List.mem_cons_self _ _))
          · exact ihbound w (List.mem_cons_of_mem _ hw'')

theorem firstIdx_eq_none_iff (x : ℕ) : ∀ (l : List ℕ),
    Opt.firstIdx x l = none ↔ ¬ x ∈ l := by
  intro l
  induction l with
  | nil => simp [Opt.firstIdx]
  | cons y ys ih =>
    by_cases h : y = x
    · simp [Opt.firstIdx, h]
    · simp only [Opt.firstIdx, if_neg h, Option.map_eq_none', List.mem_cons]
      rw [ih]
      constructor
      · intro hn hmem
        rcases hmem with hmem | hmem
        · exact h hmem.symm
        · exact hn hmem
      · intro hn hmem
        exact hn (Or.inr hmem)

/-- C2 (modelled from the spec; no Opt policy exists under `src/`): the
Optimal (Belady) policy carries the remaining future trace, its
`update_state` drops the current head, and its `replace` — after advancing
the cursor — evicts a resident item with no future occurrence in the
remaining trace when one exists, and otherwise evicts a resident whose
next occurrence is farthest in the future (no resident's next occurrence
is later). -/
theorem opt_replace_belady (s : Opt.State) (set : List ℕ) (cap : ℕ)
    (next : ℕ) (s' : Opt.State) (ev : List ℕ)
    (h : Opt.replace s set cap next = some (s', ev)) :
    s'.future = s.future.tail ∧
      ∃ v, ev = [v] ∧ v ∈ set ∧
        ((∃ x ∈ set, Opt.firstIdx x s'.future = none) →
          Opt.firstIdx v s'.future = none) ∧
        ((∀ x ∈ set, Opt.firstIdx x s'.future ≠ none) →
          ∀ x ∈ set, Opt.idxD s'.future x ≤ Opt.idxD s'.future v) := by
  simp only [Opt.replace, Opt.update_state] at h
  rcases hfind : set.find? (fun x => (Opt.firstIdx x s.future.tail).isNone) with _ | x
  · rw [hfind] at h
    cases hset : set with
    | nil => rw [hset] at h; exact absurd h (by simp)
    | cons y ys =>
      rw [hset] at h
      rw [Option.some_inj] at h
      injection h with h1 h2
      subst h1
      subst h2
      refine ⟨rfl, Opt.farthest s.future.tail y ys, rfl, ?_, ?_, ?_⟩
      · exact (farthest_spec s.future.tail ys y).1
      · intro ⟨w, hw, hwnone⟩
        rw [hset] at hfind
        have hnone := List.find?_eq_none.mp hfind w hw
        simp only [Option.isNone_iff_eq_none, decide_eq_true_eq] at hnone
        exact absurd hwnone hnone
      · intro _ w hw
        exact (farthest_spec s.future.tail ys y).2 w hw
  · rw [hfind] at h
    rw [Option.some_inj] at h
    injection h with h1 h2
    subst h1
    subst h2
    have hxmem : x ∈ set := List.mem_of_find?_eq_some hfind
    have hxnone : Opt.firstIdx x s.future.tail = none := by
      have := List.find?_some hfind
      simpa [Option.isNone_iff_eq_none] using this
    refine ⟨rfl, x, rfl, hxmem, fun _ => hxnone, ?_⟩
    intro hall
    exact absurd hxnone (hall x hxmem)

/-- Witness for C2: future trace `[9,1,2,1]` (so the remaining trace after
the cursor advances is `[1,2,1]`), residents `{1,2,3}`: item 3 never
occurs again and is evicted. -/
theorem opt_replace_belady_witness :
    (⟨[1, 2, 1]⟩ : Opt.State).future = ([9, 1, 2, 1] : List ℕ).tail ∧
      ∃ v, ([3] : List ℕ) = [v] ∧ v ∈ ([1, 2, 3] : List ℕ) ∧
        ((∃ x ∈ ([1, 2, 3] : List ℕ),
            Opt.firstIdx x (⟨[1, 2, 1]⟩ : Opt.State).future = none) →
          Opt.firstIdx v (⟨[1, 2, 1]⟩ : Opt.State).future = none) ∧
        ((∀ x ∈ ([1, 2, 3] : List ℕ),
            Opt.firstIdx x (⟨[1, 2, 1]⟩ : Opt.State).future ≠ none) →
          ∀ x ∈ ([1, 2, 3] : List ℕ),
            Opt.idxD (⟨[1, 2, 1]⟩ : Opt.State).future x
              ≤ Opt.idxD (⟨[1, 2, 1]⟩ : Opt.State).future v) :=
  opt_replace_belady ⟨[9, 1, 2, 1]⟩ [1, 2, 3] 3 5 ⟨[1, 2, 1]⟩ [3] (by decide)

theorem mem_sdStep_stack (sz : ℕ → ℕ) (paging : Bool) (stack : List ℕ)
    (curr x : ℕ) (h : x ∈ (sdStep sz paging stack curr).2) :
    x ∈ stack ∨ x = curr := by
  unfold sdStep at h
  rcases hidx : Opt.firstIdx curr stack with _ | p
  · rw [hidx] at h
    simp only [List.mem_append, List.mem_singleton] at h
    exact h
  · rw [hidx] at h
    simp only [List.mem_append, List.mem_singleton] at h
    rcases h with h | h
    · exact Or.inl ((List.eraseIdx_sublist stack p).mem h)
    · exact Or.inr h

theorem sdGo_first_occurrence (sz : ℕ → ℕ) (paging : Bool) :
    ∀ (t : List ℕ) (stack : List ℕ) (i : ℕ), i < t.length →
      ¬ t.getD i 0 ∈ stack → (∀ j, j < i → t.getD j 0 ≠ t.getD i 0) →
      (sdGo sz paging stack t).getD i (some 0) = none := by
  intro t
  induction t with
  | nil => intro stack i hi; simp at hi
  | cons c rest ih =>
    intro stack i hi hstack hfirst
    cases i with
    | zero =>
      simp only [List.getD_cons_zero] at hstack
      simp only [sdGo, List.getD_cons_zero]
      unfold sdStep
      rw [(firstIdx_eq_none_iff c stack).mpr hstack]
    | succ i' =>
      simp only [List.getD_cons_succ] at hstack hfirst ⊢
      simp only [sdGo, List.getD_cons_succ]
      refine ih _ i' (by simpa using hi) ?_ ?_
      · intro hmem
        rcases mem_sdStep_stack sz paging stack c _ hmem with h | h
        · exact hstack h
        · exact hfirst 0 (Nat.succ_pos i') (by simpa using h.symm)
      · intro j hj
        have := hfirst (j + 1) (by omega)
        simpa using this

/-- C5: `Trace::stack_distances` on the trace `[0,0,1,0,3,0,1]` returns
exactly `[None, Some 0, None, Some 1, None, Some 1, Some 2]` (the same
under the paging and the size models, unit sizes); in general, the first
occurrence of an id in a trace yields `None`. -/
theorem stack_distances_example_and_first_occurrence :
    (stack_distances sz1 true [0, 0, 1, 0, 3, 0, 1]
        = [none, some 0, none, some 1, none, some 1, some 2]) ∧
      (stack_distances sz1 false [0, 0, 1, 0, 3, 0, 1]
        = [none, some 0, none, some 1, none, some 1, some 2]) ∧
      (∀ (sz : ℕ → ℕ) (paging : Bool) (t : List ℕ) (i : ℕ), i < t.length →
        (∀ j, j < i → t.getD j 0 ≠ t.getD i 0) →
        (stack_distances sz paging t).getD i (some 0) = none) := by
  refine ⟨by decide, by decide, ?_⟩
  intro sz paging t i hi hfirst
  exact sdGo_first_occurrence sz paging t [] i hi (by simp) hfirst

/-- Witness for C5's general part: index 4 of `[0,0,1,0,3,0,1]` is the
first occurrence of 3, and its distance is `none`. -/
theorem stack_distances_first_occurrence_witness :
    (stack_distances sz1 true [0, 0, 1, 0, 3, 0, 1]).getD 4 (some 0) = none :=
  stack_distances_example_and_first_occurrence.2.2 sz1 true
    [0, 0, 1, 0, 3, 0, 1] 4 (by decide) (by decide)

theorem length_sdGo (sz : ℕ → ℕ) (paging : Bool) :
    ∀ (t : List ℕ) (stack : List ℕ), (sdGo sz paging stack t).length = t.length := by
  intro t
  induction t with
  | nil => intro stack; rfl
  | cons c rest ih =>
    intro stack
    simp only [sdGo, List.length_cons, ih]

theorem length_stack_distances (sz : ℕ → ℕ) (paging : Bool) (t : List ℕ) :
    (stack_distances sz paging t).length = t.length :=
  length_sdGo sz paging t []

theorem sum_bumpAt : ∀ (l : List ℕ) (i : ℕ), i < l.length →
    (bumpAt l i).sum = l.sum + 1 := by
  intro l
  induction l with
  | nil => intro i hi; simp at hi
  | cons a t ih =>
    intro i hi
    cases i with
    | zero => simp [bumpAt]; omega
    | succ i' =>
      have hi' : i' < t.length := by simpa using hi
      have := ih i' hi'
      simp only [bumpAt] at this ⊢
      simp only [List.set_cons_succ, List.sum_cons, List.getD_cons_succ, this]
      omega

theorem length_bumpAt (l : List ℕ) (i : ℕ) : (bumpAt l i).length = l.length := by
  simp [bumpAt]

theorem mem_le_foldl_max : ∀ (l : List ℕ) (b : ℕ),
    b ≤ l.foldl max b ∧ ∀ a ∈ l, a ≤ l.foldl max b := by
  intro l
  induction l with
  | nil => intro b; exact ⟨le_refl b, by simp⟩
  | cons c t ih =>
    intro b
    obtain ⟨h1, h2⟩ := ih (max b c)
    constructor
    · exact le_trans (le_max_left b c) (by simpa using h1)
    · intro a ha
      rcases List.mem_cons.mp ha with rfl | ha'
      · exact le_trans (le_max_right b a) (by simpa using h1)
      · simpa using h2 a ha'

theorem mem_le_maxNat (l : List ℕ) (a : ℕ) (h : a ∈ l) : a ≤ maxNat l :=
  (mem_le_foldl_max l 0).2 a h

theorem histFold_inv : ∀ (ds : List (Option ℕ)) (acc : List ℕ × ℕ),
    (∀ i, some i ∈ ds → i < acc.1.length) →
    (ds.foldl histStep acc).1.length = acc.1.length ∧
      (ds.foldl histStep acc).1.sum + (ds.foldl histStep acc).2
        = acc.1.sum + acc.2 + ds.length := by
  intro ds
  induction ds with
  | nil => intro acc _; exact ⟨rfl, by simp⟩
  | cons d rest ih =>
    intro acc hbound
    cases d with
    | some i =>
      have hi : i < acc.1.length := hbound i (List.mem_cons_self _ _)
      have hstep : histStep acc (some i) = (bumpAt acc.1 i, acc.2) := rfl
      have hbound' : ∀ j, some j ∈ rest → j < (bumpAt acc.1 i, acc.2).1.length := by
        intro j hj
        rw [length_bumpAt]
        exact hbound j (List.mem_cons_of_mem _ hj)
      obtain ⟨hlen, hsum⟩ := ih (bumpAt acc.1 i, acc.2) hbound'
      simp only [List.foldl_cons, hstep]
      refine ⟨by rw [hlen, length_bumpAt], ?_⟩
      rw [hsum]
      simp only [sum_bumpAt acc.1 i hi, List.length_cons]
      omega
    | none =>
      have hstep : histStep acc none = (acc.1, acc.2 + 1) := rfl
      have hbound' : ∀ j, some j ∈ rest → j < (acc.1, acc.2 + 1).1.length :=
        fun j hj => hbound j (List.mem_cons_of_mem _ hj)
      obtain ⟨hlen, hsum⟩ := ih (acc.1, acc.2 + 1) hbound'
      simp only [List.foldl_cons, hstep]
      refine ⟨hlen, ?_⟩
      rw [hsum]
      simp only [List.length_cons]
      omega

/-- C10: for every trace, the stack-distance histogram conserves accesses —
the sum of the frequency buckets plus the infinity count equals the length
of the trace — and the bucket vector's length is one more than the maximal
finite distance (empty when every distance is infinite). -/
theorem stack_distance_histogram_conserves (sz : ℕ → ℕ) (paging : Bool)
    (t : List ℕ) :
    (histogram (stack_distances sz paging t)).1.sum
        + (histogram (stack_distances sz paging t)).2 = t.length ∧
      (histogram (stack_distances sz paging t)).1.length
        = (if ((stack_distances sz paging t).filterMap id).isEmpty then 0
           else maxNat ((stack_distances sz paging t).filterMap id) + 1) := by
  have hmemfin : ∀ i, some i ∈ stack_distances sz paging t ↔
      i ∈ (stack_distances sz paging t).filterMap id := by
    intro i
    simp [List.mem_filterMap]
  by_cases hemp : ((stack_distances sz paging t).filterMap id).isEmpty = true
  · have hnil : ((stack_distances sz paging t).filterMap id) = [] :=
      List.isEmpty_iff.mp hemp
    have hbound : ∀ i, some i ∈ stack_distances sz paging t → i < ([] : List ℕ).length := by
      intro i hi
      rw [hmemfin i, hnil] at hi
      simp at hi
    obtain ⟨hlen, hsum⟩ := histFold_inv (stack_distances sz paging t) ([], 0) hbound
    have hhist : histogram (stack_distances sz paging t)
        = (stack_distances sz paging t).foldl histStep ([], 0) := by
      simp only [histogram]
      rw [if_pos hemp]
    rw [hhist]
    refine ⟨?_, ?_⟩
    · rw [hsum]
      simpa using length_stack_distances sz paging t
    · rw [hlen, if_pos hemp]
      rfl
  · have hbound : ∀ i, some i ∈ stack_distances sz paging t →
        i < (List.replicate (maxNat ((stack_distances sz paging t).filterMap id) + 1) 0).length := by
      intro i hi
      rw [List.length_replicate]
      have := mem_le_maxNat _ i ((hmemfin i).mp hi)
      omega
    obtain ⟨hlen, hsum⟩ := histFold_inv (stack_distances sz paging t)
      (List.replicate (maxNat ((stack_distances sz paging t).filterMap id) + 1) 0, 0) hbound
    have hhist : histogram (stack_distances sz paging t)
        = (stack_distances sz paging t).foldl histStep
            (List.replicate (maxNat ((stack_distances sz paging t).filterMap id) + 1) 0, 0) := by
      simp only [histogram]
      rw [if_neg hemp]
    rw [hhist]
    refine ⟨?_, ?_⟩
    · rw [hsum]
      have hrep : (List.replicate (maxNat ((stack_distances sz paging t).filterMap id) + 1) (0:ℕ)).sum = 0 := by
        simp
      rw [hrep]
      simpa using length_stack_distances sz paging t
    · rw [hlen, if_neg hemp, List.length_replicate]

/-- C6, counterexample: growing a trace through its `Stat` update hook
pushes onto `inner` without recomputing `strides`. Starting from the empty
trace and recording the accesses 0 then 5, `inner = [0, 5]` but
`strides = []`, so the strides sequence does not have length
`inner.length - 1` (and a fortiori misses the value `5 - 0`). -/
theorem trace_strides_stat_update_counterexample :
    (traceStatUpdate (traceStatUpdate (traceFromVec []) [] 0 []) [] 5 []).inner
        = [0, 5] ∧
      (traceStatUpdate (traceStatUpdate (traceFromVec []) [] 0 []) [] 5 []).strides
        = [] ∧
      ¬ ((traceStatUpdate (traceStatUpdate (traceFromVec []) [] 0 []) [] 5 []).strides.length
          = (traceStatUpdate (traceStatUpdate (traceFromVec []) [] 0 []) [] 5 []).inner.length
            - 1) := by
  refine ⟨by decide, by decide, by decide⟩

theorem trace_strides_getD : ∀ (l : List ℕ) (i : ℕ), i + 1 < l.length →
    (trace_strides l).getD i 0 = (l.getD (i + 1) 0 : ℤ) - (l.getD i 0 : ℤ) := by
  intro l
  induction l with
  | nil => intro i hi; simp at hi
  | cons a rest ih =>
    intro i hi
    cases rest with
    | nil => simp at hi
    | cons b rest' =>
      cases i with
      | zero => simp [trace_strides]
      | succ i' =>
        have hstep : trace_strides (a :: b :: rest')
            = ((b : ℤ) - (a : ℤ)) :: trace_strides (b :: rest') := by
          simp [trace_strides]
        rw [hstep]
        simp only [List.getD_cons_succ]
        exact ih i' (by simpa using hi)

/-- C6, amended: for every trace constructed from a vector (`From<Vec<I>>`)
or from an iterator (`FromIterator`, which computes strides identically),
the strides sequence has length one less than the trace length (zero for
the empty trace) and `strides[i] = id(inner[i+1]) - id(inner[i])` as a
signed difference. Appends performed through the trace's `Stat` update
hook do not maintain this invariant (see the counterexample). -/
theorem trace_strides_invariant_from_vec (l : List ℕ) :
    (traceFromVec l).strides.length = (traceFromVec l).inner.length - 1 ∧
      ∀ i, i + 1 < (traceFromVec l).inner.length →
        (traceFromVec l).strides.getD i 0
          = ((traceFromVec l).inner.getD (i + 1) 0 : ℤ)
            - ((traceFromVec l).inner.getD i 0 : ℤ) := by
  constructor
  · show (List.zipWith (fun (a b : ℕ) => (b : ℤ) - (a : ℤ)) l l.tail).length
        = l.length - 1
    rw [List.length_zipWith, List.length_tail]
    omega
  · intro i hi
    exact trace_strides_getD l i hi

/-- Witness for C6's amended claim: the trace `[0,0,4]` has strides of
length 2, and `strides[1] = 4 - 0`. -/
theorem trace_strides_invariant_from_vec_witness :
    (traceFromVec [0, 0, 4]).strides.getD 1 0
        = ((traceFromVec [0, 0, 4]).inner.getD 2 0 : ℤ)
          - ((traceFromVec [0, 0, 4]).inner.getD 1 0 : ℤ) :=
  (trace_strides_invariant_from_vec [0, 0, 4]).2 1 (by decide)

/-- C8: the entropy of a histogram whose counts all lie in a single bucket
is 0, and the entropy of the two-bucket histogram with equal counts
`{A ↦ 3, B ↦ 3}` is 1 — in particular within the tolerance `1e-4` of 1. -/
theorem entropy_single_bucket_and_uniform_pair (a c : ℕ) (hc : 0 < c) :
    entropy [(a, c)] = 0 ∧ |entropy [(0, 3), (1, 3)] - 1| ≤ 1 / 10000 := by
  constructor
  · have hc' : (c : ℝ) ≠ 0 := Nat.cast_ne_zero.mpr hc.ne'
    simp [entropy, div_self hc', Real.logb_one]
  · have hlog : Real.logb 2 ((1 : ℝ) / 2) = -1 := by
      rw [one_div, Real.logb_inv, Real.logb_self_eq_one one_lt_two]
    have : entropy [(0, 3), (1, 3)] = 1 := by
      simp only [entropy, List.map_cons, List.map_nil, List.sum_cons, List.sum_nil]
      norm_num [hlog]
    rw [this]
    norm_num

/-- Witness for C8: the single bucket `{0 ↦ 5}` has entropy 0. -/
theorem entropy_single_bucket_and_uniform_pair_witness :
    entropy [(0, 5)] = 0 ∧ |entropy [(0, 3), (1, 3)] - 1| ≤ 1 / 10000 :=
  entropy_single_bucket_and_uniform_pair 0 5 (by decide)

end CacheSim
